import Mathlib

/-!
Shallow embedding of the DFA evaluation engine in `src/lab2.py` (class `AFD`).

States and symbols are opaque comparable labels, modelled as `String`.
The Python input string `w` is modelled as a `List String` of symbols
(Python iterates a string character by character; each character is a
one-character string compared against the alphabet entries).

The Python `dict` holding the transition table is modelled as an
association list with unique keys: `dictInsert` is `d[k] = v`
(overwrite-if-present), `dictGet` is `d.get(k, None)`.

Python `raise ValueError(...)` in `final_state`/`derivation` is modelled
by `Except AFDError`, with one constructor per distinct error message.
-/

set_option autoImplicit false

namespace Lab2

/-- A transition table: the Python dict keyed by (state, symbol) pairs. -/
abbrev TransTable := List ((String × String) × String)

/-- Python dict assignment `d[(q, a)] = v`: overwrites the binding when the
key is already present, otherwise appends a fresh binding. -/
def dictInsert (d : TransTable) (k : String × String) (v : String) : TransTable :=
  match d with
  | [] => [(k, v)]
  | (k1, v1) :: rest =>
    if k1 = k then (k, v) :: rest else (k1, v1) :: dictInsert rest k v

/-- Python `d.get(k, None)`. -/
def dictGet (d : TransTable) (k : String × String) : Option String :=
  match d with
  | [] => none
  | (k1, v1) :: rest => if k1 = k then some v1 else dictGet rest k

/-- The five-component automaton of `AFD.__init__`, after the transition
specification has been normalized into the dict representation. -/
structure AFD where
  Q : List String
  Sigma : List String
  q0 : String
  F : List String
  delta : TransTable
deriving DecidableEq

/-- The two accepted shapes of the `delta` argument of `AFD.__init__`:
an explicit (state, symbol)-keyed mapping, or a sequence of triples. -/
inductive DeltaSpec where
  | asDict (d : TransTable)
  | asTriples (ts : List (String × String × String))
deriving DecidableEq

/-- Normalization of a triple list into a dict, as in `AFD.__init__`:
`for (q, a, q_prime) in delta: self.delta[(q, a)] = q_prime`. -/
def buildDelta (ts : List (String × String × String)) : TransTable :=
  ts.foldl (fun d t => dictInsert d (t.1, t.2.1) t.2.2) []

/-- `AFD.__init__`: stores the five components; a triple list is normalized
via `buildDelta`, an explicit dict is stored as is. No validation occurs. -/
def mkAFD (Q Sigma : List String) (q0 : String) (F : List String)
    (delta : DeltaSpec) : AFD :=
  match delta with
  | DeltaSpec.asDict d => AFD.mk Q Sigma q0 F d
  | DeltaSpec.asTriples ts => AFD.mk Q Sigma q0 F (buildDelta ts)

/-- The two `ValueError` kinds raised by `final_state` / `derivation`. -/
inductive AFDError where
  | symbolNotInAlphabet (a : String)
  | undefinedTransition (q a : String)
deriving DecidableEq

/-- `AFD.transition`: `self.delta.get((q, a), None)`. -/
def AFD.transition (A : AFD) (q a : String) : Option String :=
  dictGet A.delta (q, a)

/-- `AFD.final_state`: folds the input left to right; for each symbol,
raises `symbolNotInAlphabet` when the symbol is outside `Sigma` (checked
first), then `undefinedTransition` when the table has no entry. -/
def AFD.final_state (A : AFD) (q : String) (w : List String) :
    Except AFDError String :=
  match w with
  | [] => Except.ok q
  | a :: rest =>
    if a ∈ A.Sigma then
      match A.transition q a with
      | some q1 => A.final_state q1 rest
      | none => Except.error (AFDError.undefinedTransition q a)
    else
      Except.error (AFDError.symbolNotInAlphabet a)

/-- `AFD.derivation`: same loop as `final_state`, additionally accumulating
each `(current_state, symbol, next_state)` step; errors abort the whole
computation, so no partial trace is ever returned. -/
def AFD.derivation (A : AFD) (q : String) (w : List String) :
    Except AFDError (List (String × String × String)) :=
  match w with
  | [] => Except.ok []
  | a :: rest =>
    if a ∈ A.Sigma then
      match A.transition q a with
      | some q1 =>
        match A.derivation q1 rest with
        | Except.ok steps => Except.ok ((q, a, q1) :: steps)
        | Except.error e => Except.error e
      | none => Except.error (AFDError.undefinedTransition q a)
    else
      Except.error (AFDError.symbolNotInAlphabet a)

/-- The accepting set in effect in `AFD.accepted`: the override when
supplied (`F` argument), otherwise the automaton's own `self.F`. -/
def activeAccepting (A : AFD) (Fov : Option (List String)) : List String :=
  match Fov with
  | none => A.F
  | some F1 => F1

/-- `AFD.accepted`: runs `final_state` inside `try`; on success tests
membership in the active accepting set, on `ValueError` returns `False`. -/
def AFD.accepted (A : AFD) (q : String) (w : List String)
    (Fov : Option (List String)) : Bool :=
  match A.final_state q w with
  | Except.ok s => decide (s ∈ activeAccepting A Fov)
  | Except.error _ => false

/-- The mod-2 example automaton of `ejemplo_afd_2` (even number of letters a):
states par/impar, alphabet a/b, initial par, accepting par. -/
def afd2 : AFD :=
  AFD.mk ["par", "impar"] ["a", "b"] "par" ["par"]
    [(("par", "a"), "impar"), (("par", "b"), "par"),
     (("impar", "a"), "par"), (("impar", "b"), "impar")]

/-- The predicate of claim hypotheses "every symbol is in the alphabet and
every (current state, symbol) pair has a table entry": the run from `q`
over `w` is fully defined. -/
def definedRunB (A : AFD) : String → List String → Bool
  | _, [] => true
  | q, a :: rest =>
    match A.transition q a with
    | some q1 => decide (a ∈ A.Sigma) && definedRunB A q1 rest
    | none => false

/-- State-passing rendering of `AFD.transition`: every Python method call
on `self` takes the object in and hands the object after the call back,
so that non-mutation is a provable statement rather than a convention. -/
def AFD.transitionS (A : AFD) (q a : String) : Option String × AFD :=
  (dictGet A.delta (q, a), A)

/-- State-passing rendering of `AFD.final_state`; the automaton threaded
through the loop is the one each iteration reads `Sigma` and `delta` from. -/
def AFD.final_stateS (A : AFD) (q : String) (w : List String) :
    (Except AFDError String) × AFD :=
  match w with
  | [] => (Except.ok q, A)
  | a :: rest =>
    if a ∈ A.Sigma then
      match A.transitionS q a with
      | (some q1, A1) => A1.final_stateS q1 rest
      | (none, A1) => (Except.error (AFDError.undefinedTransition q a), A1)
    else
      (Except.error (AFDError.symbolNotInAlphabet a), A)

/-- State-passing rendering of `AFD.derivation`. -/
def AFD.derivationS (A : AFD) (q : String) (w : List String) :
    (Except AFDError (List (String × String × String))) × AFD :=
  match w with
  | [] => (Except.ok [], A)
  | a :: rest =>
    if a ∈ A.Sigma then
      match A.transitionS q a with
      | (some q1, A1) =>
        match A1.derivationS q1 rest with
        | (Except.ok steps, A2) => (Except.ok ((q, a, q1) :: steps), A2)
        | (Except.error e, A2) => (Except.error e, A2)
      | (none, A1) => (Except.error (AFDError.undefinedTransition q a), A1)
    else
      (Except.error (AFDError.symbolNotInAlphabet a), A)

/-- State-passing rendering of `AFD.accepted`; `F = self.F` is read from
the object before the `try` block, as in the source. -/
def AFD.acceptedS (A : AFD) (q : String) (w : List String)
    (Fov : Option (List String)) : Bool × AFD :=
  let Fx := activeAccepting A Fov
  match A.final_stateS q w with
  | (Except.ok s, A1) => (decide (s ∈ Fx), A1)
  | (Except.error _, A1) => (false, A1)

/-! ## Helper lemmas (shared) -/

/-- Splitting an input at any point: running `final_state` over `u ++ v`
is running it over `u` and, on success, continuing over `v`. -/
theorem final_state_append (A : AFD) (q : String) (u v : List String) :
    A.final_state q (u ++ v) =
      match A.final_state q u with
      | Except.ok s => A.final_state s v
      | Except.error e => Except.error e := by
  induction u generalizing q with
  | nil => simp [AFD.final_state]
  | cons a rest ih =>
    simp only [List.cons_append, AFD.final_state]
    by_cases h : a ∈ A.Sigma
    · simp only [if_pos h]
      cases A.transition q a with
      | some q1 => exact ih q1
      | none => rfl
    · simp [if_neg h]

/-- `final_state` is `derivation` followed by extracting the third component
of the last step (or the start state when the trace is empty). -/
theorem final_state_eq_derivation_map (A : AFD) (q : String) (w : List String) :
    A.final_state q w =
      (A.derivation q w).map
        (fun steps => ((steps.getLast?).map (fun t => t.2.2)).getD q) := by
  induction w generalizing q with
  | nil => rfl
  | cons a rest ih =>
    simp only [AFD.final_state, AFD.derivation]
    by_cases h : a ∈ A.Sigma
    · simp only [if_pos h]
      cases A.transition q a with
      | some q1 =>
        show A.final_state q1 rest =
          Except.map (fun steps => ((steps.getLast?).map (fun t => t.2.2)).getD q)
            (match A.derivation q1 rest with
            | Except.ok steps => Except.ok ((q, a, q1) :: steps)
            | Except.error e => Except.error e)
        rw [ih q1]
        cases hd : A.derivation q1 rest with
        | ok steps =>
          cases steps with
          | nil => rfl
          | cons s ss => simp [Except.map, List.getLast?_cons, List.getLastD_cons]
        | error e => rfl
      | none => rfl
    · simp [if_neg h, Except.map]

/-- `derivation` and `final_state` fail at the same inputs with the same
error value. -/
theorem derivation_error_iff (A : AFD) (q : String) (w : List String) (e : AFDError) :
    A.derivation q w = Except.error e ↔ A.final_state q w = Except.error e := by
  rw [final_state_eq_derivation_map]
  cases A.derivation q w <;> simp [Except.map]

/-- A fully defined run makes `derivation` succeed. -/
theorem derivation_ok_of_definedRunB (A : AFD) (q : String) (w : List String)
    (h : definedRunB A q w = true) :
    ∃ steps, A.derivation q w = Except.ok steps := by
  induction w generalizing q with
  | nil => exact ⟨[], rfl⟩
  | cons a rest ih =>
    unfold definedRunB at h
    cases ht : A.transition q a with
    | none => rw [ht] at h; simp at h
    | some q1 =>
      rw [ht] at h
      simp only [Bool.and_eq_true, decide_eq_true_eq] at h
      obtain ⟨ha, hr⟩ := h
      obtain ⟨steps, hs⟩ := ih q1 hr
      refine ⟨(q, a, q1) :: steps, ?_⟩
      simp only [AFD.derivation, if_pos ha, ht, hs]

/-! ## Claim theorems -/

/-- C1: `accepted(q, w, F)` is true iff `final_state(q, w)` succeeds with a
member of the active accepting set (the override when supplied, else the
automaton's `accepting_states`); any error from `final_state` makes
`accepted` return false instead of propagating. -/
theorem accepted_iff_final_state (A : AFD) (q : String) (w : List String)
    (Fov : Option (List String)) :
    (A.accepted q w Fov = true ↔
      ∃ s, A.final_state q w = Except.ok s ∧ s ∈ activeAccepting A Fov) ∧
    (∀ e, A.final_state q w = Except.error e → A.accepted q w Fov = false) := by
  unfold AFD.accepted
  cases hf : A.final_state q w with
  | ok s =>
    refine ⟨by simp, fun e he => ?_⟩
    simp at he
  | error e0 =>
    exact ⟨by simp, fun e he => rfl⟩

/-- C1 witness: a symbol outside the alphabet makes `accepted` false. -/
theorem accepted_iff_final_state_witness :
    afd2.accepted "par" ["z"] none = false :=
  (accepted_iff_final_state afd2 "par" ["z"] none).2
    (AFDError.symbolNotInAlphabet "z") rfl

/-- C2: when every symbol of `w` is in the alphabet and the transition path
is fully defined, `final_state(q0, w)` succeeds and equals the third
component of the last element of `derivation(q0, w)`, defaulting to `q0`
itself when `w` is empty. -/
theorem final_state_last_of_derivation (A : AFD) (q0 : String) (w : List String)
    (h : definedRunB A q0 w = true) :
    ∃ steps, A.derivation q0 w = Except.ok steps ∧
      A.final_state q0 w =
        Except.ok (((steps.getLast?).map (fun t => t.2.2)).getD q0) := by
  obtain ⟨steps, hs⟩ := derivation_ok_of_definedRunB A q0 w h
  refine ⟨steps, hs, ?_⟩
  rw [final_state_eq_derivation_map, hs]
  rfl

/-- C2 witness: the mod-2 automaton on input a, b. -/
theorem final_state_last_of_derivation_witness :
    ∃ steps, afd2.derivation "par" ["a", "b"] = Except.ok steps ∧
      afd2.final_state "par" ["a", "b"] =
        Except.ok (((steps.getLast?).map (fun t => t.2.2)).getD "par") :=
  final_state_last_of_derivation afd2 "par" ["a", "b"] (by decide)

/-- C3: `derivation` and `final_state` succeed or fail together, with the
same error value when they fail; since `derivation` yields its trace only
through the success constructor, no partial trace exists on failure. -/
theorem derivation_final_state_agree (A : AFD) (q : String) (w : List String) :
    ((∃ steps, A.derivation q w = Except.ok steps) ↔
      (∃ s, A.final_state q w = Except.ok s)) ∧
    (∀ e, A.derivation q w = Except.error e ↔ A.final_state q w = Except.error e) := by
  refine ⟨?_, fun e => derivation_error_iff A q w e⟩
  rw [final_state_eq_derivation_map]
  cases A.derivation q w <;> simp [Except.map]

/-- C3 witness: both operations fail with the same error on a symbol
outside the alphabet. -/
theorem derivation_final_state_agree_witness :
    afd2.derivation "par" ["z"] = Except.error (AFDError.symbolNotInAlphabet "z") :=
  ((derivation_final_state_agree afd2 "par" ["z"]).2
    (AFDError.symbolNotInAlphabet "z")).mpr rfl

/-- C4: at any position of the input (after a successful prefix `u`), a
symbol outside the alphabet fails with `symbolNotInAlphabet` — with no
assumption on the transition table, hence even when the raw table has an
entry for that pair — while a symbol in the alphabet whose (state, symbol)
pair has no table entry fails with `undefinedTransition`; the suffix after
the offending symbol is arbitrary, so the first error short-circuits. -/
theorem error_kind_discipline (A : AFD) (q : String) (u : List String)
    (q1 a : String) (rest : List String)
    (hu : A.final_state q u = Except.ok q1) :
    (a ∉ A.Sigma →
      A.final_state q (u ++ a :: rest) =
          Except.error (AFDError.symbolNotInAlphabet a) ∧
        A.derivation q (u ++ a :: rest) =
          Except.error (AFDError.symbolNotInAlphabet a)) ∧
    (a ∈ A.Sigma → A.transition q1 a = none →
      A.final_state q (u ++ a :: rest) =
          Except.error (AFDError.undefinedTransition q1 a) ∧
        A.derivation q (u ++ a :: rest) =
          Except.error (AFDError.undefinedTransition q1 a)) := by
  have hstep : ∀ e : AFDError,
      A.final_state q1 (a :: rest) = Except.error e →
      A.final_state q (u ++ a :: rest) = Except.error e ∧
        A.derivation q (u ++ a :: rest) = Except.error e := by
    intro e he
    have hf : A.final_state q (u ++ a :: rest) = Except.error e := by
      rw [final_state_append, hu]
      exact he
    exact ⟨hf, (derivation_error_iff A q (u ++ a :: rest) e).mpr hf⟩
  constructor
  · intro ha
    refine hstep (AFDError.symbolNotInAlphabet a) ?_
    simp [AFD.final_state, if_neg ha]
  · intro ha ht
    refine hstep (AFDError.undefinedTransition q1 a) ?_
    simp [AFD.final_state, if_pos ha, ht]

/-- C4 witness: after the successful prefix a, the symbol z (outside the
alphabet of the mod-2 automaton) fails both operations with
`symbolNotInAlphabet`. -/
theorem error_kind_discipline_witness :
    afd2.final_state "par" (["a"] ++ "z" :: []) =
        Except.error (AFDError.symbolNotInAlphabet "z") ∧
      afd2.derivation "par" (["a"] ++ "z" :: []) =
        Except.error (AFDError.symbolNotInAlphabet "z") :=
  (error_kind_discipline afd2 "par" ["a"] "impar" "z" [] rfl).1 (by decide)

/-- C5: on the empty input, `final_state` returns the start state unchanged
for every automaton and every start state (also one absent from the
declared state set, since `q` ranges over all labels); in particular the
mod-2 example automaton maps start par and empty input to par. -/
theorem final_state_nil_id (A : AFD) (q : String) :
    A.final_state q [] = Except.ok q ∧
      afd2.final_state "par" [] = Except.ok "par" :=
  ⟨rfl, rfl⟩

/-- C6: a successful `derivation` has exactly one step per input symbol,
and on the empty input it succeeds with the empty trace. -/
theorem derivation_length_eq (A : AFD) (q : String) (w : List String)
    (steps : List (String × String × String))
    (h : A.derivation q w = Except.ok steps) :
    steps.length = w.length ∧ A.derivation q [] = Except.ok [] := by
  refine ⟨?_, rfl⟩
  induction w generalizing q steps with
  | nil =>
    unfold AFD.derivation at h
    cases h
    rfl
  | cons a rest ih =>
    by_cases ha : a ∈ A.Sigma
    · cases ht : A.transition q a with
      | none => simp [AFD.derivation, if_pos ha, ht] at h
      | some q1 =>
        cases hd : A.derivation q1 rest with
        | ok steps1 =>
          simp only [AFD.derivation, if_pos ha, ht, hd, Except.ok.injEq] at h
          subst h
          simp [ih q1 steps1 hd]
        | error e => simp [AFD.derivation, if_pos ha, ht, hd] at h
    · simp [AFD.derivation, if_neg ha] at h

/-- C6 witness: the mod-2 automaton on the two-symbol input a, b. -/
theorem derivation_length_eq_witness :
    ([("par", "a", "impar"), ("impar", "b", "impar")] :
        List (String × String × String)).length =
        (["a", "b"] : List String).length ∧
      afd2.derivation "par" [] = Except.ok [] :=
  derivation_length_eq afd2 "par" ["a", "b"]
    [("par", "a", "impar"), ("impar", "b", "impar")] rfl

/-- Inserting at a key makes lookup of that key return the new value. -/
theorem dictGet_dictInsert_self (d : TransTable) (k : String × String)
    (v : String) : dictGet (dictInsert d k v) k = some v := by
  induction d with
  | nil => simp [dictInsert, dictGet]
  | cons p rest ih =>
    obtain ⟨k1, v1⟩ := p
    by_cases h : k1 = k
    · simp [dictInsert, dictGet, h]
    · simp [dictInsert, dictGet, h, ih]

/-- Inserting at a key leaves lookup of any other key unchanged. -/
theorem dictGet_dictInsert_ne (d : TransTable) (k k2 : String × String)
    (v : String) (h : k2 ≠ k) :
    dictGet (dictInsert d k v) k2 = dictGet d k2 := by
  induction d with
  | nil => simp [dictInsert, dictGet, Ne.symm h]
  | cons p rest ih =>
    obtain ⟨k1, v1⟩ := p
    by_cases h1 : k1 = k
    · subst h1
      simp [dictInsert, dictGet, Ne.symm h]
    · simp [dictInsert, dictGet, h1, ih]

/-- `buildDelta` consumes its triples left to right. -/
theorem buildDelta_append (ts : List (String × String × String))
    (t : String × String × String) :
    buildDelta (ts ++ [t]) = dictInsert (buildDelta ts) (t.1, t.2.1) t.2.2 := by
  simp [buildDelta, List.foldl_append]

/-- C7: both shapes of the transition specification are accepted — an
explicit dict is stored as the table unchanged, a triple list is
normalized into a dict — and for triples a lookup through `transition`
returns the target of the LAST triple for the queried (state, symbol)
pair: later triples overwrite earlier ones. -/
theorem construction_last_write_wins (Q S : List String) (q0 : String)
    (F : List String) (ts : List (String × String × String)) (st a : String) :
    ((mkAFD Q S q0 F (DeltaSpec.asTriples ts)).transition st a =
      ((ts.filter (fun t => decide ((t.1, t.2.1) = (st, a)))).getLast?).map
        (fun t => t.2.2)) ∧
    (∀ d, (mkAFD Q S q0 F (DeltaSpec.asDict d)).delta = d) := by
  refine ⟨?_, fun d => rfl⟩
  show dictGet (buildDelta ts) (st, a) = _
  induction ts using List.reverseRecOn with
  | nil => rfl
  | append_singleton ts t ih =>
    rw [buildDelta_append]
    by_cases h : (t.1, t.2.1) = (st, a)
    · rw [h, dictGet_dictInsert_self, List.filter_append]
      have hp : List.filter (fun t => decide ((t.1, t.2.1) = (st, a))) [t] = [t] := by
        simp only [List.filter_cons, decide_eq_true_eq, if_pos h, List.filter_nil]
      rw [hp, List.getLast?_concat]
      rfl
    · rw [dictGet_dictInsert_ne _ _ _ _ (fun hc => h hc.symm), ih, List.filter_append]
      have hp : List.filter (fun t => decide ((t.1, t.2.1) = (st, a))) [t] = [] := by
        simp only [List.filter_cons, decide_eq_true_eq, if_neg h, List.filter_nil]
      rw [hp, List.append_nil]

/-- C8: construction from the five components always yields an automaton
whose fields are exactly the supplied components — with no hypothesis
relating `q0` to `Q`, `F` to `Q`, or the transition entries to `Q` and `S`,
so no validation can reject any input; both transition shapes are stored
(triples after `buildDelta` normalization, a dict unchanged). -/
theorem construction_total (Q S : List String) (q0 : String) (F : List String)
    (ds : DeltaSpec) :
    (mkAFD Q S q0 F ds).Q = Q ∧ (mkAFD Q S q0 F ds).Sigma = S ∧
    (mkAFD Q S q0 F ds).q0 = q0 ∧ (mkAFD Q S q0 F ds).F = F ∧
    (∀ d, (mkAFD Q S q0 F (DeltaSpec.asDict d)).delta = d) ∧
    (∀ ts, (mkAFD Q S q0 F (DeltaSpec.asTriples ts)).delta = buildDelta ts) := by
  cases ds <;> exact ⟨rfl, rfl, rfl, rfl, fun d => rfl, fun ts => rfl⟩

/-- The state-passing `final_state` returns the automaton unchanged and the
same value as the direct function. -/
theorem final_stateS_eq (A : AFD) (q : String) (w : List String) :
    A.final_stateS q w = (A.final_state q w, A) := by
  induction w generalizing q with
  | nil => rfl
  | cons a rest ih =>
    show (if a ∈ A.Sigma then _ else _) = (A.final_state q (a :: rest), A)
    by_cases h : a ∈ A.Sigma
    · rw [if_pos h]
      show (match A.transitionS q a with
        | (some q1, A1) => A1.final_stateS q1 rest
        | (none, A1) => (Except.error (AFDError.undefinedTransition q a), A1)) = _
      show (match (A.transition q a, A) with
        | (some q1, A1) => A1.final_stateS q1 rest
        | (none, A1) => (Except.error (AFDError.undefinedTransition q a), A1)) = _
      cases ht : A.transition q a with
      | some q1 =>
        show A.final_stateS q1 rest = (A.final_state q (a :: rest), A)
        rw [ih q1]
        simp [AFD.final_state, if_pos h, ht]
      | none => simp [AFD.final_state, if_pos h, ht]
    · rw [if_neg h]
      simp [AFD.final_state, if_neg h]

/-- The state-passing `derivation` returns the automaton unchanged and the
same value as the direct function. -/
theorem derivationS_eq (A : AFD) (q : String) (w : List String) :
    A.derivationS q w = (A.derivation q w, A) := by
  induction w generalizing q with
  | nil => rfl
  | cons a rest ih =>
    show (if a ∈ A.Sigma then _ else _) = (A.derivation q (a :: rest), A)
    by_cases h : a ∈ A.Sigma
    · rw [if_pos h]
      show (match (A.transition q a, A) with
        | (some q1, A1) =>
          match A1.derivationS q1 rest with
          | (Except.ok steps, A2) => (Except.ok ((q, a, q1) :: steps), A2)
          | (Except.error e, A2) => (Except.error e, A2)
        | (none, A1) => (Except.error (AFDError.undefinedTransition q a), A1)) = _
      cases ht : A.transition q a with
      | some q1 =>
        show (match A.derivationS q1 rest with
          | (Except.ok steps, A2) => (Except.ok ((q, a, q1) :: steps), A2)
          | (Except.error e, A2) => (Except.error e, A2)) =
          (A.derivation q (a :: rest), A)
        rw [ih q1]
        cases hd : A.derivation q1 rest with
        | ok steps => simp [AFD.derivation, if_pos h, ht, hd]
        | error e => simp [AFD.derivation, if_pos h, ht, hd]
      | none => simp [AFD.derivation, if_pos h, ht]
    · rw [if_neg h]
      simp [AFD.derivation, if_neg h]

/-- C9: no query mutates the automaton: the state-passing renderings of
`transition`, `final_state`, `derivation` and `accepted` (with or without
an accepting-set override) all hand back the automaton they received,
identically on success and on failure, and their result components agree
with the direct functions. -/
theorem queries_no_mutation (A : AFD) (q a : String) (w : List String)
    (Fov : Option (List String)) :
    (A.transitionS q a).2 = A ∧ (A.final_stateS q w).2 = A ∧
    (A.derivationS q w).2 = A ∧ (A.acceptedS q w Fov).2 = A ∧
    (A.transitionS q a).1 = A.transition q a ∧
    (A.final_stateS q w).1 = A.final_state q w ∧
    (A.derivationS q w).1 = A.derivation q w ∧
    (A.acceptedS q w Fov).1 = A.accepted q w Fov := by
  have hacc : A.acceptedS q w Fov = (A.accepted q w Fov, A) := by
    unfold AFD.acceptedS AFD.accepted
    rw [final_stateS_eq]
    cases A.final_state q w with
    | ok s => rfl
    | error e => rfl
  refine ⟨rfl, ?_, ?_, ?_, rfl, ?_, ?_, ?_⟩
  · rw [final_stateS_eq]
  · rw [derivationS_eq]
  · rw [hacc]
  · rw [final_stateS_eq]
  · rw [derivationS_eq]
  · rw [hacc]

/-- Automata agreeing on alphabet and table run `final_state` identically,
whatever their declared state sets and initial states. -/
theorem final_state_congr (A B : AFD) (hS : A.Sigma = B.Sigma)
    (hd : A.delta = B.delta) (q : String) (w : List String) :
    A.final_state q w = B.final_state q w := by
  induction w generalizing q with
  | nil => rfl
  | cons a rest ih =>
    simp only [AFD.final_state, AFD.transition, hS, hd]
    by_cases h : a ∈ B.Sigma
    · simp only [if_pos h]
      cases dictGet B.delta (q, a) with
      | some q1 => exact ih q1
      | none => rfl
    · simp [if_neg h]

/-- Automata agreeing on alphabet and table run `derivation` identically. -/
theorem derivation_congr (A B : AFD) (hS : A.Sigma = B.Sigma)
    (hd : A.delta = B.delta) (q : String) (w : List String) :
    A.derivation q w = B.derivation q w := by
  induction w generalizing q with
  | nil => rfl
  | cons a rest ih =>
    simp only [AFD.derivation, AFD.transition, hS, hd]
    by_cases h : a ∈ B.Sigma
    · simp only [if_pos h]
      cases dictGet B.delta (q, a) with
      | some q1 =>
        show (match A.derivation q1 rest with
          | Except.ok steps => Except.ok ((q, a, q1) :: steps)
          | Except.error e => Except.error e) =
          (match B.derivation q1 rest with
          | Except.ok steps => Except.ok ((q, a, q1) :: steps)
          | Except.error e => Except.error e)
        rw [ih q1]
      | none => rfl
    · simp [if_neg h]

/-- A fully defined run makes `final_state` succeed. -/
theorem final_state_ok_of_definedRunB (A : AFD) (q : String) (w : List String)
    (h : definedRunB A q w = true) :
    ∃ s, A.final_state q w = Except.ok s := by
  obtain ⟨steps, hs⟩ := derivation_ok_of_definedRunB A q w h
  refine ⟨((steps.getLast?).map (fun t => t.2.2)).getD q, ?_⟩
  rw [final_state_eq_derivation_map, hs]
  rfl

/-- C10: the query operations never consult the declared state set or the
stored initial state: two automata sharing alphabet, accepting states and
table — one with any other declared state set and initial state — give
identical `final_state`, `derivation` and `accepted` results; and a run
succeeds as soon as every symbol is in the alphabet and every
(state, symbol) pair on the path has a table entry, a condition that never
mentions `Q`. -/
theorem queries_ignore_declared_states (Qa Qb S : List String) (i1 i2 : String)
    (F : List String) (d : TransTable) (q : String) (w : List String)
    (Fov : Option (List String)) :
    ((AFD.mk Qa S i1 F d).final_state q w = (AFD.mk Qb S i2 F d).final_state q w) ∧
    ((AFD.mk Qa S i1 F d).derivation q w = (AFD.mk Qb S i2 F d).derivation q w) ∧
    ((AFD.mk Qa S i1 F d).accepted q w Fov = (AFD.mk Qb S i2 F d).accepted q w Fov) ∧
    (definedRunB (AFD.mk Qa S i1 F d) q w = true →
      ∃ s, (AFD.mk Qa S i1 F d).final_state q w = Except.ok s) := by
  have hfs := final_state_congr (AFD.mk Qa S i1 F d) (AFD.mk Qb S i2 F d) rfl rfl q w
  refine ⟨hfs, derivation_congr (AFD.mk Qa S i1 F d) (AFD.mk Qb S i2 F d) rfl rfl q w,
    ?_, final_state_ok_of_definedRunB (AFD.mk Qa S i1 F d) q w⟩
  unfold AFD.accepted
  rw [hfs]
  cases Fov <;> rfl

/-- C10 witness: an automaton with an empty declared state set and a
dangling initial state still runs successfully from a state outside it. -/
theorem queries_ignore_declared_states_witness :
    ∃ s, (AFD.mk [] ["a", "b"] "x" ["par"] afd2.delta).final_state "par" ["a"]
      = Except.ok s :=
  (queries_ignore_declared_states [] ["q"] ["a", "b"] "x" "y" ["par"]
    afd2.delta "par" ["a"] none).2.2.2 (by decide)

end Lab2
